import Mathlib

/-
  Verification development for the QEMU block-profiling plugins of this
  repository: the hot-block report plugin (hash table of TBExecCount
  records, two sorted report sections, summary) and the basic-block
  vector (BBV) collection plugin (interval slicing of the dynamic
  instruction stream), together with the BBV plugin's option parsing.

  Machine integers are modelled as Nat with explicit reduction modulo
  2^64 at every operation where the C code performs uint64_t
  arithmetic.
-/

namespace Profiler

/-- Modulus of 64-bit unsigned machine arithmetic. -/
def u64 : Nat := 2 ^ 64

/-- Unsigned 64-bit subtraction with wraparound, for operands below 2^64. -/
def sub64 (a b : Nat) : Nat := (a + u64 - b % u64) % u64


namespace BBV

/-- Per-block record of the BBV plugin (C struct BBExecutionFrequency). -/
structure BBExecutionFrequency where
  tbid : Nat
  tb_pc : Nat
  n_insns : Nat
  tb_dynamic_count : Nat
  symbol : Option String
  offset_from_symbol : Nat
deriving DecidableEq

/-- Hash-table lookup keyed by the block start address (the C code uses
the pc value itself as the hash key of a direct-equality table). -/
def lookup (pc : Nat) (bs : List BBExecutionFrequency) : Option BBExecutionFrequency :=
  bs.find? (fun b => b.tb_pc == pc)

/-- Replace the record stored under key pc (first match) by f applied to it. -/
def update (pc : Nat) (f : BBExecutionFrequency → BBExecutionFrequency) :
    List BBExecutionFrequency → List BBExecutionFrequency
  | [] => []
  | b :: bs => if b.tb_pc == pc then f b :: bs else b :: update pc f bs

/-- State of the BBV plugin: the block table (in insertion order), the
global running instruction counter, the next block id, and the contents
written to the bb_out stream so far.  Each emitted T line is a list of
(tbid, count) pairs. -/
structure State where
  blocks : List BBExecutionFrequency
  insns_executed : Nat
  next_tbid : Nat
  bb_out : List (List (Nat × Nat))
deriving DecidableEq

/-- The pairs printed by one pass of print_bb_freq over the table:
every block with a non-zero tb_dynamic_count contributes one
(tbid, tb_dynamic_count) pair. -/
def print_bb_freq_line (bs : List BBExecutionFrequency) : List (Nat × Nat) :=
  bs.filterMap (fun b =>
    if b.tb_dynamic_count ≠ 0 then some (b.tbid, b.tb_dynamic_count) else none)

/-- After print_bb_freq has visited every record, all interval counts are zero. -/
def zero_counts (bs : List BBExecutionFrequency) : List BBExecutionFrequency :=
  bs.map (fun b => { b with tb_dynamic_count := 0 })

/-- handle_interval_expiry with bb_out enabled: write one T line listing
every non-zero per-block interval count and reset those counts. -/
def handle_interval_expiry (s : State) : State :=
  { s with
    bb_out := s.bb_out ++ [print_bb_freq_line s.blocks],
    blocks := zero_counts s.blocks }

/-- The BBV execution callback vcpu_tb_exec, for the block registered at
address pc, with configured interval length L.  Mirrors the C code:
add n_insns to the running total and to the block's interval count,
then, if the total strictly exceeds the interval length, carve out the
overshoot, emit the interval, and seed the next interval with the
overshoot attributed to the triggering block. -/
def vcpu_tb_exec (L : Nat) (pc : Nat) (s : State) : State :=
  match lookup pc s.blocks with
  | none => s
  | some info =>
    let t := (s.insns_executed + info.n_insns) % u64
    let c := (info.tb_dynamic_count + info.n_insns) % u64
    let bs1 := update pc (fun b => { b with tb_dynamic_count := c }) s.blocks
    if L < t then
      let o := t - L
      let bs2 := update pc (fun b => { b with tb_dynamic_count := sub64 c o }) bs1
      let s2 := handle_interval_expiry
        { blocks := bs2, insns_executed := o, next_tbid := s.next_tbid, bb_out := s.bb_out }
      { s2 with blocks := update pc (fun b => { b with tb_dynamic_count := o }) s2.blocks }
    else
      { s with blocks := bs1, insns_executed := t }

/-- The BBV translation callback vcpu_tb_trans: on a miss insert a fresh
record with the next block id; on a hit do nothing to the table. -/
def vcpu_tb_trans (pc n : Nat) (sym : Option String) (s : State) : State :=
  match lookup pc s.blocks with
  | some _ => s
  | none =>
    { s with
      blocks := s.blocks ++ [⟨s.next_tbid, pc, n, 0, sym, 0⟩],
      next_tbid := (s.next_tbid + 1) % u64 }

/-- Events delivered to the BBV plugin by the emulator: a translation of
the block at pc with n instructions, or a dynamic execution of the block
at pc. -/
inductive Event where
  | trans (pc n : Nat) (sym : Option String)
  | exec (pc : Nat)
deriving DecidableEq

def step (L : Nat) (s : State) : Event → State
  | .trans pc n sym => vcpu_tb_trans pc n sym s
  | .exec pc => vcpu_tb_exec L pc s

def init : State := ⟨[], 0, 0, []⟩

/-- Number of instructions an event dynamically executes in state s:
the executed block's n_insns for an execution event, 0 otherwise. -/
def execInsns (s : State) : Event → Nat
  | .trans _ _ _ => 0
  | .exec pc => match lookup pc s.blocks with
    | some b => b.n_insns
    | none => 0

/-- Run the event trace, also accumulating the total number of
dynamically executed instructions. -/
def runAux (L : Nat) : List Event → State → Nat → State × Nat
  | [], s, t => (s, t)
  | e :: es, s, t => runAux L es (step L s e) (t + execInsns s e)

def run (L : Nat) (evs : List Event) : State := (runAux L evs init 0).1

/-- Total dynamically executed instructions of a run: the sum over all
executions of the executed block's n_insns. -/
def runTotal (L : Nat) (evs : List Event) : Nat := (runAux L evs init 0).2

/-- plugin_exit flushes one final interval line for the unfinished interval. -/
def plugin_exit_out (s : State) : List (List (Nat × Nat)) :=
  (handle_interval_expiry s).bb_out

/-- Everything written to bb_out over the whole run, final flush included. -/
def finalOut (L : Nat) (evs : List Event) : List (List (Nat × Nat)) :=
  plugin_exit_out (run L evs)

def lineSum (line : List (Nat × Nat)) : Nat := (line.map (·.2)).sum

def outSum (out : List (List (Nat × Nat))) : Nat := (out.map lineSum).sum

def countSum (bs : List BBExecutionFrequency) : Nat :=
  (bs.map (·.tb_dynamic_count)).sum

/-- Trace hypothesis for exact conservation: every translated block
fits within one interval. -/
def transOk (L : Nat) : Event → Bool
  | .trans _ n _ => decide (n ≤ L)
  | .exec _ => true

/-- Invariant of an interval-mode run relating the state to the ghost
total t of dynamically executed instructions: the open interval's
per-block counts sum to the running counter, which never exceeds the
interval length at rest, all stored block sizes are within one
interval, and everything executed is either already written out or
still pending in the running counter. -/
structure Inv (L : Nat) (s : State) (t : Nat) : Prop where
  hsum : countSum s.blocks = s.insns_executed
  hle : s.insns_executed ≤ L
  hn : ∀ b ∈ s.blocks, b.n_insns ≤ L
  hcons : outSum s.bb_out + s.insns_executed = t


/-- Sum of the per-block credits a BBV line assigns to a given block id. -/
def creditOf (line : List (Nat × Nat)) (tbid : Nat) : Nat :=
  ((line.filter (fun p => p.1 == tbid)).map (·.2)).sum

end BBV

/-- GLib's g_list_sort_merge: take the head of the first list whenever
the comparator returns a value at most 0.  A fuel argument (bounded
below by the sum of the lengths) keeps the recursion structural. -/
def gMergeF (cmp : α → α → Int) : Nat → List α → List α → List α
  | _, [], l2 => l2
  | _, l1, [] => l1
  | 0, l1, l2 => l1 ++ l2
  | fuel + 1, a :: l1, b :: l2 =>
    if cmp a b ≤ 0 then a :: gMergeF cmp fuel l1 (b :: l2)
    else b :: gMergeF cmp fuel (a :: l1) l2

def g_list_sort_merge (cmp : α → α → Int) (l1 l2 : List α) : List α :=
  gMergeF cmp (l1.length + l2.length) l1 l2

/-- GLib's g_list_sort: split the list after the first ⌊n/2⌋ nodes,
sort both halves recursively and merge.  The fuel (bounded below by the
length) keeps the recursion structural. -/
def gSortF (cmp : α → α → Int) : Nat → List α → List α
  | _, [] => []
  | _, [a] => [a]
  | 0, l => l
  | fuel + 1, a :: b :: rest =>
    let l := a :: b :: rest
    let k := l.length / 2
    g_list_sort_merge cmp (gSortF cmp fuel (l.take k)) (gSortF cmp fuel (l.drop k))

def g_list_sort (cmp : α → α → Int) (l : List α) : List α := gSortF cmp l.length l

namespace HotBlocks

/-- Translation-time view of one instruction as the plugin reads it
from the emulator: byte size, raw encoding, disassembled text. -/
structure InsnDesc where
  size : Nat
  rawData : Nat
  disasm : String
deriving DecidableEq

/-- Stored per-instruction snapshot (C struct qemu_insn).  The C code
reads the encoding only for 4-byte and 2-byte instructions and leaves
the field unset (indeterminate) otherwise; the unspecified case is none. -/
structure qemu_insn where
  len : Nat
  data : Option Nat
  disasm : String
deriving DecidableEq

def snapshot_insn (i : InsnDesc) : qemu_insn :=
  { len := i.size,
    data := match i.size with
      | 4 => some (i.rawData % 2 ^ 32)
      | 2 => some (i.rawData % 2 ^ 16)
      | _ => none,
    disasm := i.disasm }

/-- Per-block record of the hot-block plugin (C struct TBExecCount). -/
structure TBExecCount where
  start_addr : Nat
  exec_count : Nat
  trans_count : Nat
  n_insns : Nat
  insns : List qemu_insn
  symbol : Option String
deriving DecidableEq

/-- Hash-table lookup keyed by the start address (the hash value is the
pc itself; the xor with the instruction count is commented out in C). -/
def lookup (pc : Nat) (store : List TBExecCount) : Option TBExecCount :=
  store.find? (fun c => c.start_addr == pc)

def update (pc : Nat) (f : TBExecCount → TBExecCount) :
    List TBExecCount → List TBExecCount
  | [] => []
  | c :: cs => if c.start_addr == pc then f c :: cs else c :: update pc f cs

/-- The hot-block translation callback vcpu_tb_trans: on a hit only
trans_count is incremented; on a miss a fresh record is inserted with
the instruction snapshot and symbol taken at translation time. -/
def vcpu_tb_trans (pc : Nat) (descs : List InsnDesc) (sym : Option String)
    (store : List TBExecCount) : List TBExecCount :=
  match lookup pc store with
  | some _ => update pc (fun c => { c with trans_count := (c.trans_count + 1) % u64 }) store
  | none =>
    store ++ [{ start_addr := pc, exec_count := 0, trans_count := 1,
                n_insns := descs.length, insns := descs.map snapshot_insn,
                symbol := sym }]

/-- The inline execution counter registered at translation time:
one unconditional 64-bit increment of exec_count per execution. -/
def exec_inline_add (pc : Nat) (store : List TBExecCount) : List TBExecCount :=
  update pc (fun c => { c with exec_count := (c.exec_count + 1) % u64 }) store

inductive Event where
  | trans (pc : Nat) (descs : List InsnDesc) (sym : Option String)
  | exec (pc : Nat)
deriving DecidableEq

def step (store : List TBExecCount) : Event → List TBExecCount
  | .trans pc descs sym => vcpu_tb_trans pc descs sym store
  | .exec pc => exec_inline_add pc store

def run (evs : List Event) : List TBExecCount := evs.foldl step []

/-- Sort key of cmp_dynamic_insncount: exec_count * n_insns in uint64. -/
def keyI (c : TBExecCount) : Nat := (c.exec_count * c.n_insns) % u64

/-- Sort key of cmp_dynamic_execcount: exec_count. -/
def keyE (c : TBExecCount) : Nat := c.exec_count

/-- The C comparator: -1 when the first key is strictly greater, else 1
(it never returns 0, even for equal keys). -/
def cmp_dynamic_insncount (a b : TBExecCount) : Int :=
  if keyI b < keyI a then -1 else 1

def cmp_dynamic_execcount (a b : TBExecCount) : Int :=
  if keyE b < keyE a then -1 else 1

/-- One printed line of a report section: address, absolute count, the
two operands of the percentage division as performed (count * 100 over
the run total), the symbol text, and the disassembly lines (only in the
by-dynamic-instructions section). -/
structure ReportLine where
  addr : Nat
  count : Nat
  pct_num : Nat
  pct_den : Nat
  symbol : String
  disasms : List String
deriving DecidableEq

structure Report where
  n_blocks : Nat
  insn_lines : List ReportLine
  invoc_lines : List ReportLine
  summary_total : Nat
  summary_blocks : Nat
deriving DecidableEq

/-- The total accumulated by plugin_exit: it iterates the sorted list
with a loop whose condition is the successor pointer, so the last node
of the sorted list is never visited. -/
def total_insn_executed (sorted : List TBExecCount) : Nat :=
  sorted.dropLast.foldl (fun acc c => (acc + (c.n_insns * c.exec_count) % u64) % u64) 0

/-- The report produced by the hot-block plugin_exit.  Both section
loops share the e->next loop condition and hence drop the final node of
their respective sorted lists. -/
def plugin_exit (store : List TBExecCount) : Report :=
  let sorted1 := g_list_sort cmp_dynamic_insncount store
  let total := total_insn_executed sorted1
  let insn_lines := sorted1.dropLast.map (fun c =>
    { addr := c.start_addr,
      count := (c.n_insns * c.exec_count) % u64,
      pct_num := ((c.n_insns * c.exec_count) % u64) * 100,
      pct_den := total,
      symbol := c.symbol.getD "",
      disasms := c.insns.map (·.disasm) : ReportLine })
  let sorted2 := g_list_sort cmp_dynamic_execcount store
  let invoc_lines := sorted2.dropLast.map (fun c =>
    { addr := c.start_addr,
      count := c.exec_count,
      pct_num := c.exec_count * 100,
      pct_den := total,
      symbol := c.symbol.getD "",
      disasms := [] : ReportLine })
  { n_blocks := store.length,
    insn_lines := insn_lines,
    invoc_lines := invoc_lines,
    summary_total := total,
    summary_blocks := store.length }

/-- The quantity the specification calls total_dynamic_instructions_executed:
the sum of exec_count * n_insns (in uint64) over all blocks of the store. -/
def storeTotal (store : List TBExecCount) : Nat :=
  (store.map (fun c => (c.exec_count * c.n_insns) % u64)).sum

end HotBlocks

namespace BBVInstall

/-- Configuration produced by the BBV plugin's qemu_plugin_install. -/
structure Config where
  bb_out_file : Option String
  pc_out_file : Option String
  insns_interval_length : Nat
deriving DecidableEq

/-- g_str_has_prefix on the option text (the options are ASCII, so the
byte-level C comparison is the character-level one). -/
def strHasPre (s pre : String) : Bool := pre.toList.isPrefixOf s.toList

/-- Advancing the C option pointer by n bytes past the ASCII option name. -/
def strDrop (s : String) (n : Nat) : String := ⟨s.toList.drop n⟩

def isDigitChar (c : Char) : Bool := 48 ≤ c.toNat && c.toNat ≤ 57

/-- Decimal g_ascii_strtoull as applied to the option tail: the value
of the leading run of decimal digits, reduced to uint64. -/
def g_ascii_strtoull_dec (s : String) : Nat :=
  ((s.toList.takeWhile isDigitChar).foldl (fun acc c => acc * 10 + (c.toNat - 48)) 0) % u64

def parse_opts : List String → Config → Option Config
  | [], cfg => some cfg
  | opt :: rest, cfg =>
    if strHasPre opt "bb-out-file=" then
      parse_opts rest { cfg with bb_out_file := some (strDrop opt 12) }
    else if strHasPre opt "pc-out-file=" then
      parse_opts rest { cfg with pc_out_file := some (strDrop opt 12) }
    else if strHasPre opt "interval-size=" then
      parse_opts rest { cfg with insns_interval_length := g_ascii_strtoull_dec (strDrop opt 14) }
    else
      none

/-- The BBV plugin's qemu_plugin_install: scan the argument vector,
failing (returning -1, here none) only on an unrecognized option.  The
interval length defaults to 100000000 and is stored unvalidated. -/
def qemu_plugin_install (argv : List String) : Option Config :=
  parse_opts argv { bb_out_file := none, pc_out_file := none, insns_interval_length := 100000000 }

end BBVInstall


/-! Theorems. -/

theorem sub64_of_le (a b : Nat) (hba : b ≤ a) (ha : a < u64) : sub64 a b = a - b := by
  have hb : b < u64 := lt_of_le_of_lt hba ha
  unfold sub64
  rw [Nat.mod_eq_of_lt hb]
  have h1 : a + u64 - b = (a - b) + u64 := by omega
  rw [h1, Nat.add_mod_right, Nat.mod_eq_of_lt (by omega)]

namespace BBV

theorem countSum_append (l1 l2 : List BBExecutionFrequency) :
    countSum (l1 ++ l2) = countSum l1 + countSum l2 := by
  simp [countSum]

theorem countSum_cons (b : BBExecutionFrequency) (l : List BBExecutionFrequency) :
    countSum (b :: l) = b.tb_dynamic_count + countSum l := by
  simp [countSum]

theorem countSum_zero_counts (l : List BBExecutionFrequency) :
    countSum (zero_counts l) = 0 := by
  induction l with
  | nil => simp [countSum, zero_counts]
  | cons b l ih => simpa [countSum, zero_counts] using ih

theorem zero_counts_append (l1 l2 : List BBExecutionFrequency) :
    zero_counts (l1 ++ l2) = zero_counts l1 ++ zero_counts l2 := by
  simp [zero_counts]

theorem outSum_append (o1 o2 : List (List (Nat × Nat))) :
    outSum (o1 ++ o2) = outSum o1 + outSum o2 := by
  simp [outSum]

theorem outSum_singleton (line : List (Nat × Nat)) :
    outSum [line] = lineSum line := by
  simp [outSum]

theorem lineSum_print_bb_freq (bs : List BBExecutionFrequency) :
    lineSum (print_bb_freq_line bs) = countSum bs := by
  induction bs with
  | nil => simp [lineSum, print_bb_freq_line, countSum]
  | cons b l ih =>
    by_cases hb : b.tb_dynamic_count = 0 <;>
      simp [lineSum, print_bb_freq_line, countSum, hb] at ih ⊢ <;> omega

/-- A successful lookup splits the table into a non-matching first part,
the found record, and the rest. -/
theorem lookup_decomp {pc : Nat} {bs : List BBExecutionFrequency}
    {b0 : BBExecutionFrequency} (h : lookup pc bs = some b0) :
    ∃ l1 l2, bs = l1 ++ b0 :: l2 ∧ (∀ b ∈ l1, (b.tb_pc == pc) = false) ∧
      (b0.tb_pc == pc) = true := by
  induction bs with
  | nil => simp [lookup] at h
  | cons b bs ih =>
    rw [lookup, List.find?_cons] at h
    by_cases hb : (b.tb_pc == pc) = true
    · rw [hb] at h
      simp only [Option.some.injEq] at h
      exact ⟨[], bs, by simpa using h, by simp, h ▸ hb⟩
    · have hb' : (b.tb_pc == pc) = false := by simpa using hb
      rw [hb'] at h
      obtain ⟨l1, l2, hbs, h1, h0⟩ := ih h
      exact ⟨b :: l1, l2, by simp [hbs], by
        intro x hx
        rcases List.mem_cons.mp hx with hx | hx
        · subst hx; simpa using hb
        · exact h1 x hx, h0⟩

/-- Updating under a key located as in lookup_decomp rewrites exactly
the located record. -/
theorem update_append {pc : Nat} (f : BBExecutionFrequency → BBExecutionFrequency)
    {l1 l2 : List BBExecutionFrequency} {b0 : BBExecutionFrequency}
    (h1 : ∀ b ∈ l1, (b.tb_pc == pc) = false) (h0 : (b0.tb_pc == pc) = true) :
    update pc f (l1 ++ b0 :: l2) = l1 ++ f b0 :: l2 := by
  induction l1 with
  | nil => simp [update, h0]
  | cons b l1 ih =>
    have hb := h1 b (List.mem_cons_self b l1)
    simp only [List.cons_append, update, hb]
    simp only [Bool.false_eq_true, if_false, List.cons.injEq, true_and]
    exact ih (fun x hx => h1 x (List.mem_cons_of_mem b hx))

theorem lookup_append {pc : Nat} {l1 l2 : List BBExecutionFrequency}
    {b0 : BBExecutionFrequency}
    (h1 : ∀ b ∈ l1, (b.tb_pc == pc) = false) (h0 : (b0.tb_pc == pc) = true) :
    lookup pc (l1 ++ b0 :: l2) = some b0 := by
  induction l1 with
  | nil =>
    rw [List.nil_append, lookup, List.find?_cons, h0]
  | cons b l1 ih =>
    have hb := h1 b (List.mem_cons_self b l1)
    rw [List.cons_append, lookup, List.find?_cons, hb]
    exact ih (fun x hx => h1 x (List.mem_cons_of_mem b hx))

theorem vcpu_tb_exec_absent {L pc : Nat} {s : State}
    (h : lookup pc s.blocks = none) : vcpu_tb_exec L pc s = s := by
  simp [vcpu_tb_exec, h]

theorem vcpu_tb_trans_hit {pc n : Nat} {sym : Option String} {s : State}
    {info : BBExecutionFrequency} (h : lookup pc s.blocks = some info) :
    vcpu_tb_trans pc n sym s = s := by
  simp [vcpu_tb_trans, h]

/-- Characterization of the BBV execution callback when the updated
running total does not strictly exceed the interval length: counters
accumulate and nothing is emitted. -/
theorem vcpu_tb_exec_nocross {L pc : Nat} {s : State} {info : BBExecutionFrequency}
    {l1 l2 : List BBExecutionFrequency}
    (hbs : s.blocks = l1 ++ info :: l2)
    (hl1 : ∀ b ∈ l1, (b.tb_pc == pc) = false)
    (h0 : (info.tb_pc == pc) = true)
    (hwrap : s.insns_executed + info.n_insns < u64)
    (hcnt : info.tb_dynamic_count + info.n_insns < u64)
    (hnc : ¬ L < s.insns_executed + info.n_insns) :
    vcpu_tb_exec L pc s =
      { s with
        blocks := l1 ++
          { info with tb_dynamic_count := info.tb_dynamic_count + info.n_insns } :: l2,
        insns_executed := s.insns_executed + info.n_insns } := by
  have hfind : lookup pc s.blocks = some info := by rw [hbs]; exact lookup_append hl1 h0
  rw [vcpu_tb_exec, hfind]
  simp only [Nat.mod_eq_of_lt hwrap, Nat.mod_eq_of_lt hcnt, if_neg hnc, hbs,
    update_append _ hl1 h0]

/-- Characterization of the BBV execution callback on a boundary
crossing: the overshoot o = running total - interval length is carved
out of the triggering block's interval count, one T line is emitted,
every interval count is reset, and the triggering block's count is
seeded with the overshoot, which also becomes the new running total. -/
theorem vcpu_tb_exec_cross {L pc : Nat} {s : State} {info : BBExecutionFrequency}
    {l1 l2 : List BBExecutionFrequency}
    (hbs : s.blocks = l1 ++ info :: l2)
    (hl1 : ∀ b ∈ l1, (b.tb_pc == pc) = false)
    (h0 : (info.tb_pc == pc) = true)
    (hwrap : s.insns_executed + info.n_insns < u64)
    (hcnt : info.tb_dynamic_count + info.n_insns < u64)
    (hcross : L < s.insns_executed + info.n_insns)
    (hunder : s.insns_executed + info.n_insns - L ≤ info.tb_dynamic_count + info.n_insns) :
    vcpu_tb_exec L pc s =
      { blocks := zero_counts l1 ++
          { info with tb_dynamic_count := s.insns_executed + info.n_insns - L } ::
            zero_counts l2,
        insns_executed := s.insns_executed + info.n_insns - L,
        next_tbid := s.next_tbid,
        bb_out := s.bb_out ++ [print_bb_freq_line (l1 ++
          { info with tb_dynamic_count :=
              info.tb_dynamic_count + info.n_insns -
                (s.insns_executed + info.n_insns - L) } :: l2)] } := by
  have hfind : lookup pc s.blocks = some info := by rw [hbs]; exact lookup_append hl1 h0
  have hl1z : ∀ b ∈ zero_counts l1, (b.tb_pc == pc) = false := by
    intro b hb
    obtain ⟨a, ha, hab⟩ := List.mem_map.mp hb
    subst hab
    exact hl1 a ha
  have h0b : (({ info with tb_dynamic_count := info.tb_dynamic_count + info.n_insns } :
      BBExecutionFrequency).tb_pc == pc) = true := h0
  have h0c : (({ info with tb_dynamic_count := 0 } :
      BBExecutionFrequency).tb_pc == pc) = true := h0
  have e1 : update pc
      (fun b => { b with tb_dynamic_count := info.tb_dynamic_count + info.n_insns })
      s.blocks =
      l1 ++ { info with tb_dynamic_count := info.tb_dynamic_count + info.n_insns } :: l2 := by
    rw [hbs]; exact update_append _ hl1 h0
  have e2 : update pc
      (fun b => { b with tb_dynamic_count := (sub64 (info.tb_dynamic_count + info.n_insns)
        (s.insns_executed + info.n_insns - L)) })
      (l1 ++ { info with tb_dynamic_count := info.tb_dynamic_count + info.n_insns } :: l2) =
      l1 ++ { info with tb_dynamic_count := (info.tb_dynamic_count + info.n_insns -
        (s.insns_executed + info.n_insns - L)) } :: l2 := by
    have := @update_append pc
      (fun b => { b with tb_dynamic_count := (sub64 (info.tb_dynamic_count + info.n_insns)
        (s.insns_executed + info.n_insns - L)) }) l1 l2
      { info with tb_dynamic_count := info.tb_dynamic_count + info.n_insns } hl1 h0b
    rw [this, sub64_of_le _ _ hunder hcnt]
  have e3 : zero_counts
      (l1 ++ { info with tb_dynamic_count :=
        info.tb_dynamic_count + info.n_insns -
          (s.insns_executed + info.n_insns - L) } :: l2) =
      zero_counts l1 ++ ({ info with tb_dynamic_count := 0} :
        BBExecutionFrequency) :: zero_counts l2 := by
    simp only [zero_counts, List.map_append, List.map_cons]
  have e4 : update pc
      (fun b => { b with tb_dynamic_count := s.insns_executed + info.n_insns - L })
      (zero_counts l1 ++ ({ info with tb_dynamic_count := 0} :
        BBExecutionFrequency) :: zero_counts l2) =
      zero_counts l1 ++ ({ info with tb_dynamic_count :=
        s.insns_executed + info.n_insns - L } :
        BBExecutionFrequency) :: zero_counts l2 :=
    update_append _ hl1z h0c
  rw [vcpu_tb_exec, hfind]
  simp only [Nat.mod_eq_of_lt hwrap, Nat.mod_eq_of_lt hcnt, if_pos hcross]
  rw [e1, e2]
  simp only [handle_interval_expiry]
  rw [e3, e4]


theorem step_inv {L : Nat} (hL : L + L < u64) {s : State} {t : Nat} {e : Event}
    (hi : Inv L s t) (he : transOk L e = true) :
    Inv L (step L s e) (t + execInsns s e) := by
  cases e with
  | trans pc n sym =>
    have hex : execInsns s (Event.trans pc n sym) = 0 := rfl
    rw [hex, Nat.add_zero]
    cases hfind : lookup pc s.blocks with
    | some b =>
      rw [step, vcpu_tb_trans_hit hfind]
      exact hi
    | none =>
      have hnL : n ≤ L := by simpa [transOk] using he
      rw [step, vcpu_tb_trans, hfind]
      refine ⟨?_, hi.hle, ?_, hi.hcons⟩
      · simpa [countSum_append, countSum_cons, countSum] using hi.hsum
      · intro b hb
        rcases List.mem_append.mp hb with hb | hb
        · exact hi.hn b hb
        · simp only [List.mem_singleton] at hb
          subst hb
          exact hnL
  | exec pc =>
    cases hfind : lookup pc s.blocks with
    | none =>
      have hex : execInsns s (Event.exec pc) = 0 := by simp [execInsns, hfind]
      rw [hex, Nat.add_zero, step, vcpu_tb_exec_absent hfind]
      exact hi
    | some info =>
      obtain ⟨l1, l2, hbs, hl1, h0⟩ := lookup_decomp hfind
      have hmem : info ∈ s.blocks := by
        rw [hbs]; exact List.mem_append_right _ (List.mem_cons_self _ _)
      have hex : execInsns s (Event.exec pc) = info.n_insns := by
        simp [execInsns, hfind]
      have hnle : info.n_insns ≤ L := hi.hn info hmem
      have hsum0 : countSum l1 + info.tb_dynamic_count + countSum l2 = s.insns_executed := by
        have h := hi.hsum
        rw [hbs, countSum_append, countSum_cons] at h
        omega
      have hE : s.insns_executed ≤ L := hi.hle
      have hwrap : s.insns_executed + info.n_insns < u64 := by omega
      have hcnt : info.tb_dynamic_count + info.n_insns < u64 := by omega
      rw [hex, step]
      by_cases hcross : L < s.insns_executed + info.n_insns
      · have hunder : s.insns_executed + info.n_insns - L ≤
            info.tb_dynamic_count + info.n_insns := by omega
        rw [vcpu_tb_exec_cross hbs hl1 h0 hwrap hcnt hcross hunder]
        have hline : lineSum (print_bb_freq_line (l1 ++
            { info with tb_dynamic_count := (info.tb_dynamic_count + info.n_insns -
              (s.insns_executed + info.n_insns - L)) } :: l2)) = L := by
          rw [lineSum_print_bb_freq, countSum_append, countSum_cons]
          simp only []
          omega
        refine ⟨?_, by dsimp only; omega, ?_, ?_⟩
        · dsimp only
          rw [countSum_append, countSum_cons, countSum_zero_counts, countSum_zero_counts]
          dsimp only
          omega
        · intro b hb
          rcases List.mem_append.mp hb with hb | hb
          · obtain ⟨a, ha, hab⟩ := List.mem_map.mp hb
            subst hab
            exact hi.hn a (by rw [hbs]; exact List.mem_append_left _ ha)
          · rcases List.mem_cons.mp hb with hb | hb
            · subst hb
              exact hnle
            · obtain ⟨a, ha, hab⟩ := List.mem_map.mp hb
              subst hab
              exact hi.hn a (by
                rw [hbs]
                exact List.mem_append_right _ (List.mem_cons_of_mem _ ha))
        · dsimp only
          rw [outSum_append, outSum_singleton, hline]
          have h := hi.hcons
          omega
      · rw [vcpu_tb_exec_nocross hbs hl1 h0 hwrap hcnt hcross]
        refine ⟨?_, by dsimp only; omega, ?_, ?_⟩
        · dsimp only
          rw [countSum_append, countSum_cons]
          dsimp only
          omega
        · intro b hb
          rcases List.mem_append.mp hb with hb | hb
          · exact hi.hn b (by rw [hbs]; exact List.mem_append_left _ hb)
          · rcases List.mem_cons.mp hb with hb | hb
            · subst hb
              exact hnle
            · exact hi.hn b (by
                rw [hbs]
                exact List.mem_append_right _ (List.mem_cons_of_mem _ hb))
        · have h := hi.hcons
          dsimp only
          omega

theorem runAux_inv {L : Nat} (hL : L + L < u64) :
    ∀ (evs : List Event) (s : State) (t : Nat), Inv L s t →
      (∀ e ∈ evs, transOk L e = true) →
      Inv L (runAux L evs s t).1 (runAux L evs s t).2
  | [], s, t, hi, _ => hi
  | e :: es, s, t, hi, hb => by
    rw [runAux]
    exact runAux_inv hL es _ _ (step_inv hL hi (hb e (List.mem_cons_self _ _)))
      (fun x hx => hb x (List.mem_cons_of_mem _ hx))

theorem bbv_run_inv (L : Nat) (evs : List Event) (hL : L + L < u64)
    (hb : ∀ e ∈ evs, transOk L e = true) :
    Inv L (run L evs) (runTotal L evs) := by
  have hinit : Inv L init 0 :=
    ⟨rfl, Nat.zero_le _, by intro b hb0; simp [init] at hb0, rfl⟩
  exact runAux_inv hL evs init 0 hinit hb

theorem print_bb_freq_line_append (l1 l2 : List BBExecutionFrequency) :
    print_bb_freq_line (l1 ++ l2) =
      print_bb_freq_line l1 ++ print_bb_freq_line l2 := by
  simp [print_bb_freq_line]

theorem creditOf_append (A B : List (Nat × Nat)) (tbid : Nat) :
    creditOf (A ++ B) tbid = creditOf A tbid + creditOf B tbid := by
  simp [creditOf]

theorem creditOf_print_absent {l : List BBExecutionFrequency} {tbid : Nat}
    (h : ∀ b ∈ l, b.tbid ≠ tbid) :
    creditOf (print_bb_freq_line l) tbid = 0 := by
  induction l with
  | nil => simp [creditOf, print_bb_freq_line]
  | cons b l ih =>
    have hb : (b.tbid == tbid) = false := by
      simpa using h b (List.mem_cons_self _ _)
    have ih' := ih (fun x hx => h x (List.mem_cons_of_mem _ hx))
    by_cases hc : b.tb_dynamic_count = 0 <;>
      simpa [print_bb_freq_line, creditOf, hc, hb] using ih'

theorem creditOf_print_cons_self (r : BBExecutionFrequency)
    (l : List BBExecutionFrequency) :
    creditOf (print_bb_freq_line (r :: l)) r.tbid =
      r.tb_dynamic_count + creditOf (print_bb_freq_line l) r.tbid := by
  by_cases hc : r.tb_dynamic_count = 0 <;>
    simp [print_bb_freq_line, creditOf, hc]

theorem creditOf_print_mid {l1 l2 : List BBExecutionFrequency}
    {r : BBExecutionFrequency}
    (h1 : ∀ b ∈ l1, b.tbid ≠ r.tbid) (h2 : ∀ b ∈ l2, b.tbid ≠ r.tbid) :
    creditOf (print_bb_freq_line (l1 ++ r :: l2)) r.tbid = r.tb_dynamic_count := by
  rw [print_bb_freq_line_append, creditOf_append, creditOf_print_absent h1,
    creditOf_print_cons_self, creditOf_print_absent h2]
  omega

/-- C2 (amended): with BBV output enabled, provided every translated
block fits within one interval (and twice the interval length stays
below 2^64, so no 64-bit counter operation wraps), the sum of all
per-block counts over all emitted BBV interval lines plus the final
flush line equals the total number of dynamically executed
instructions. -/
theorem bbv_flush_sum_equals_total_executed (L : Nat) (evs : List Event)
    (hL : L + L < u64) (hb : ∀ e ∈ evs, transOk L e = true) :
    outSum (finalOut L evs) = runTotal L evs := by
  have h := bbv_run_inv L evs hL hb
  rw [finalOut, plugin_exit_out]
  dsimp only [handle_interval_expiry]
  rw [outSum_append, outSum_singleton, lineSum_print_bb_freq, h.hsum]
  exact h.hcons

/-- Witness for the amended C2 theorem on Scenario A. -/
theorem bbv_flush_sum_equals_total_executed_witness :
    (100 + 100 < u64 ∧
      ∀ e ∈ [Event.trans 0 40 none, Event.exec 0, Event.exec 0, Event.exec 0],
        transOk 100 e = true) ∧
    outSum (finalOut 100
      [Event.trans 0 40 none, Event.exec 0, Event.exec 0, Event.exec 0]) =
      runTotal 100 [Event.trans 0 40 none, Event.exec 0, Event.exec 0, Event.exec 0] :=
  ⟨⟨by decide, by decide⟩,
    bbv_flush_sum_equals_total_executed 100
      [Event.trans 0 40 none, Event.exec 0, Event.exec 0, Event.exec 0]
      (by decide) (by decide)⟩

/-- C2 counterexample: with interval length 10 and blocks of 5 and 25
instructions, the uint64 subtraction of the overshoot from the
triggering block's count underflows, one emitted count wraps to
2^64 - 10, and the sum of all emitted counts is 2^64 + 35 while only 35
instructions were executed.  The claim's unconditional equality is
false on the code. -/
theorem bbv_flush_sum_mismatch_on_underflow :
    runTotal 10 [Event.trans 0 5 none, Event.trans 1 25 none,
      Event.exec 0, Event.exec 1, Event.exec 0] = 35 ∧
    outSum (finalOut 10 [Event.trans 0 5 none, Event.trans 1 25 none,
      Event.exec 0, Event.exec 1, Event.exec 0]) = 2 ^ 64 + 35 ∧
    outSum (finalOut 10 [Event.trans 0 5 none, Event.trans 1 25 none,
      Event.exec 0, Event.exec 1, Event.exec 0]) ≠
      runTotal 10 [Event.trans 0 5 none, Event.trans 1 25 none,
        Event.exec 0, Event.exec 1, Event.exec 0] := by
  refine ⟨by decide, by decide, by decide⟩

/-- C4: interval size 100, one block of 40 instructions (block id 0)
executed three times: one interval line crediting block 0 with 100
instructions is emitted, and the shutdown flush emits one line
crediting it with 20. -/
theorem bbv_interval_100_block40_three_execs :
    finalOut 100 [Event.trans 0 40 none, Event.exec 0, Event.exec 0, Event.exec 0] =
      [[(0, 100)], [(0, 20)]] := by
  decide

/-- C1: when a single block execution pushes the running total strictly
past the interval boundary, the emitted BBV line credits the triggering
block with its interval count minus the overshoot, and afterwards the
triggering block's interval count and the running total both equal the
overshoot.  The block-id uniqueness hypotheses hold for every table the
plugin actually builds. -/
theorem bbv_boundary_overshoot_split {L pc : Nat} {s : State}
    {info : BBExecutionFrequency}
    (hfind : lookup pc s.blocks = some info)
    (hpcs : s.blocks.Pairwise (fun a b => a.tb_pc ≠ b.tb_pc))
    (htb : ∀ b ∈ s.blocks, b.tbid = info.tbid → b.tb_pc = info.tb_pc)
    (hwrap : s.insns_executed + info.n_insns < u64)
    (hcnt : info.tb_dynamic_count + info.n_insns < u64)
    (hcross : L < s.insns_executed + info.n_insns)
    (hunder : s.insns_executed + info.n_insns - L ≤
      info.tb_dynamic_count + info.n_insns) :
    ∃ line,
      (vcpu_tb_exec L pc s).bb_out = s.bb_out ++ [line] ∧
      creditOf line info.tbid =
        info.tb_dynamic_count + info.n_insns -
          (s.insns_executed + info.n_insns - L) ∧
      lookup pc (vcpu_tb_exec L pc s).blocks =
        some { info with tb_dynamic_count :=
          (s.insns_executed + info.n_insns - L) } ∧
      (vcpu_tb_exec L pc s).insns_executed =
        s.insns_executed + info.n_insns - L := by
  obtain ⟨l1, l2, hbs, hl1, h0⟩ := lookup_decomp hfind
  have hl1z : ∀ b ∈ zero_counts l1, (b.tb_pc == pc) = false := by
    intro b hb
    obtain ⟨a, ha, hab⟩ := List.mem_map.mp hb
    subst hab
    exact hl1 a ha
  have h0o : (({ info with tb_dynamic_count :=
      (s.insns_executed + info.n_insns - L) } :
      BBExecutionFrequency).tb_pc == pc) = true := h0
  have e := vcpu_tb_exec_cross hbs hl1 h0 hwrap hcnt hcross hunder
  have hpcs' := hpcs
  rw [hbs, List.pairwise_append] at hpcs'
  obtain ⟨hp1, hp2, hp12⟩ := hpcs'
  rw [List.pairwise_cons] at hp2
  obtain ⟨hpinfo, hp2sub⟩ := hp2
  have h1 : ∀ b ∈ l1, b.tbid ≠ info.tbid := by
    intro b hb heq
    exact (hp12 b hb info (List.mem_cons_self _ _))
      (htb b (by rw [hbs]; exact List.mem_append_left _ hb) heq)
  have h2 : ∀ b ∈ l2, b.tbid ≠ info.tbid := by
    intro b hb heq
    exact (hpinfo b hb)
      ((htb b (by
        rw [hbs]
        exact List.mem_append_right _ (List.mem_cons_of_mem _ hb)) heq)).symm
  refine ⟨print_bb_freq_line (l1 ++ { info with tb_dynamic_count :=
    (info.tb_dynamic_count + info.n_insns -
      (s.insns_executed + info.n_insns - L)) } :: l2), ?_, ?_, ?_, ?_⟩
  · rw [e]
  · exact creditOf_print_mid h1 h2
  · rw [e]
    dsimp only
    exact lookup_append hl1z h0o
  · rw [e]

/-- Witness for the C1 theorem: one block of 40 instructions whose
third consecutive execution crosses the boundary of a 100-instruction
interval with 80 instructions already accumulated. -/
theorem bbv_boundary_overshoot_split_witness :
    (lookup 4096 (State.mk [⟨0, 4096, 40, 80, none, 0⟩] 80 1 []).blocks =
      some ⟨0, 4096, 40, 80, none, 0⟩) ∧
    ∃ line,
      (vcpu_tb_exec 100 4096 (State.mk [⟨0, 4096, 40, 80, none, 0⟩] 80 1 [])).bb_out =
        (State.mk [⟨0, 4096, 40, 80, none, 0⟩] 80 1 []).bb_out ++ [line] ∧
      creditOf line 0 = 100 ∧
      lookup 4096
        (vcpu_tb_exec 100 4096 (State.mk [⟨0, 4096, 40, 80, none, 0⟩] 80 1 [])).blocks =
        some ⟨0, 4096, 40, 20, none, 0⟩ ∧
      (vcpu_tb_exec 100 4096
        (State.mk [⟨0, 4096, 40, 80, none, 0⟩] 80 1 [])).insns_executed = 20 :=
  ⟨by decide,
    @bbv_boundary_overshoot_split 100 4096
      (State.mk [⟨0, 4096, 40, 80, none, 0⟩] 80 1 [])
      ⟨0, 4096, 40, 80, none, 0⟩ (by decide) (by decide) (by decide)
      (by decide) (by decide) (by decide) (by decide)⟩

/-- C5 counterexample: interval length 10, a block of exactly 10
instructions executed once lands exactly on the boundary.  The interval
is not closed (no line emitted) and the running total is 10, not 0,
because the crossing check of the code is strict. -/
theorem bbv_exact_fit_does_not_close_interval :
    (run 10 [Event.trans 0 10 none, Event.exec 0]).bb_out = [] ∧
    (run 10 [Event.trans 0 10 none, Event.exec 0]).insns_executed = 10 ∧
    (10 : Nat) ≠ 0 := by
  refine ⟨by decide, by decide, by decide⟩

/-- C5 (amended): a block execution whose instruction count exactly
equals the remaining room leaves the interval open with the running
total equal to the interval length and emits nothing; the close is
deferred to the next execution, whose instructions then all become the
overshoot carried into the following interval. -/
theorem bbv_exact_fit_defers_close {L pc : Nat} {s : State}
    {info : BBExecutionFrequency}
    (hfind : lookup pc s.blocks = some info)
    (hexact : s.insns_executed + info.n_insns = L)
    (hwrapL : L < u64)
    (hcnt : info.tb_dynamic_count + info.n_insns < u64) :
    (vcpu_tb_exec L pc s).bb_out = s.bb_out ∧
    (vcpu_tb_exec L pc s).insns_executed = L ∧
    ∀ pc2 info2,
      lookup pc2 (vcpu_tb_exec L pc s).blocks = some info2 →
      0 < info2.n_insns → L + info2.n_insns < u64 →
      info2.tb_dynamic_count + info2.n_insns < u64 →
      (vcpu_tb_exec L pc2 (vcpu_tb_exec L pc s)).insns_executed = info2.n_insns ∧
      ∃ line, (vcpu_tb_exec L pc2 (vcpu_tb_exec L pc s)).bb_out =
        (vcpu_tb_exec L pc s).bb_out ++ [line] := by
  obtain ⟨l1, l2, hbs, hl1, h0⟩ := lookup_decomp hfind
  have hwrap : s.insns_executed + info.n_insns < u64 := by rw [hexact]; exact hwrapL
  have hnc : ¬ L < s.insns_executed + info.n_insns := by omega
  have e1 := vcpu_tb_exec_nocross hbs hl1 h0 hwrap hcnt hnc
  have hE1 : (vcpu_tb_exec L pc s).insns_executed = L := by
    rw [e1]
    dsimp only
    omega
  refine ⟨by rw [e1], hE1, ?_⟩
  intro pc2 info2 hfind2 hpos hw2 hc2
  obtain ⟨m1, m2, hbs2, hm1, h02⟩ := lookup_decomp hfind2
  have hw2p : (vcpu_tb_exec L pc s).insns_executed + info2.n_insns < u64 := by
    rw [hE1]; exact hw2
  have hcross2 : L < (vcpu_tb_exec L pc s).insns_executed + info2.n_insns := by
    rw [hE1]; omega
  have hunder2 : (vcpu_tb_exec L pc s).insns_executed + info2.n_insns - L ≤
      info2.tb_dynamic_count + info2.n_insns := by
    rw [hE1]; omega
  have e2 := vcpu_tb_exec_cross hbs2 hm1 h02 hw2p hc2 hcross2 hunder2
  constructor
  · rw [e2]
    dsimp only
    rw [hE1]
    omega
  · exact ⟨_, by rw [e2]⟩

/-- Witness for the amended C5 theorem: block of 10 instructions lands
exactly on the boundary of a 10-instruction interval; the deferred
close fires at its next execution. -/
theorem bbv_exact_fit_defers_close_witness :
    (lookup 0 (State.mk [⟨0, 0, 10, 0, none, 0⟩] 0 1 []).blocks =
       some ⟨0, 0, 10, 0, none, 0⟩ ∧
     (0 : Nat) + 10 = 10 ∧ 10 < u64 ∧ (0 : Nat) + 10 < u64) ∧
    ((vcpu_tb_exec 10 0 (State.mk [⟨0, 0, 10, 0, none, 0⟩] 0 1 [])).bb_out =
       (State.mk [⟨0, 0, 10, 0, none, 0⟩] 0 1 []).bb_out ∧
     (vcpu_tb_exec 10 0 (State.mk [⟨0, 0, 10, 0, none, 0⟩] 0 1 [])).insns_executed = 10 ∧
     ∀ pc2 info2,
       lookup pc2 (vcpu_tb_exec 10 0 (State.mk [⟨0, 0, 10, 0, none, 0⟩] 0 1 [])).blocks =
         some info2 →
       0 < info2.n_insns → 10 + info2.n_insns < u64 →
       info2.tb_dynamic_count + info2.n_insns < u64 →
       (vcpu_tb_exec 10 pc2
         (vcpu_tb_exec 10 0 (State.mk [⟨0, 0, 10, 0, none, 0⟩] 0 1 []))).insns_executed =
         info2.n_insns ∧
       ∃ line, (vcpu_tb_exec 10 pc2
           (vcpu_tb_exec 10 0 (State.mk [⟨0, 0, 10, 0, none, 0⟩] 0 1 []))).bb_out =
         (vcpu_tb_exec 10 0 (State.mk [⟨0, 0, 10, 0, none, 0⟩] 0 1 [])).bb_out ++ [line]) :=
  ⟨⟨by decide, by decide, by decide, by decide⟩,
    @bbv_exact_fit_defers_close 10 0
      (State.mk [⟨0, 0, 10, 0, none, 0⟩] 0 1 [])
      ⟨0, 0, 10, 0, none, 0⟩ (by decide) (by decide) (by decide)
      (by decide)⟩

/-- Characterization of a boundary-crossing execution without any
assumption on the overshoot subtraction: the triggering block's emitted
count is stated as the raw uint64 difference sub64, which underflows
exactly when the overshoot exceeds the block's updated interval count. -/
theorem vcpu_tb_exec_cross_raw {L pc : Nat} {s : State}
    {info : BBExecutionFrequency} {l1 l2 : List BBExecutionFrequency}
    (hbs : s.blocks = l1 ++ info :: l2)
    (hl1 : ∀ b ∈ l1, (b.tb_pc == pc) = false)
    (h0 : (info.tb_pc == pc) = true)
    (hwrap : s.insns_executed + info.n_insns < u64)
    (hcnt : info.tb_dynamic_count + info.n_insns < u64)
    (hcross : L < s.insns_executed + info.n_insns) :
    vcpu_tb_exec L pc s =
      { blocks := zero_counts l1 ++
          { info with tb_dynamic_count := s.insns_executed + info.n_insns - L } ::
            zero_counts l2,
        insns_executed := s.insns_executed + info.n_insns - L,
        next_tbid := s.next_tbid,
        bb_out := s.bb_out ++ [print_bb_freq_line (l1 ++
          { info with tb_dynamic_count :=
              (sub64 (info.tb_dynamic_count + info.n_insns)
                (s.insns_executed + info.n_insns - L)) } :: l2)] } := by
  have hfind : lookup pc s.blocks = some info := by rw [hbs]; exact lookup_append hl1 h0
  have hl1z : ∀ b ∈ zero_counts l1, (b.tb_pc == pc) = false := by
    intro b hb
    obtain ⟨a, ha, hab⟩ := List.mem_map.mp hb
    subst hab
    exact hl1 a ha
  have h0b : (({ info with tb_dynamic_count := info.tb_dynamic_count + info.n_insns } :
      BBExecutionFrequency).tb_pc == pc) = true := h0
  have h0c : (({ info with tb_dynamic_count := 0 } :
      BBExecutionFrequency).tb_pc == pc) = true := h0
  have e1 : update pc
      (fun b => { b with tb_dynamic_count := info.tb_dynamic_count + info.n_insns })
      s.blocks =
      l1 ++ { info with tb_dynamic_count := info.tb_dynamic_count + info.n_insns } :: l2 := by
    rw [hbs]; exact update_append _ hl1 h0
  have e2 : update pc
      (fun b => { b with tb_dynamic_count := (sub64 (info.tb_dynamic_count + info.n_insns)
        (s.insns_executed + info.n_insns - L)) })
      (l1 ++ { info with tb_dynamic_count := info.tb_dynamic_count + info.n_insns } :: l2) =
      l1 ++ { info with tb_dynamic_count := (sub64 (info.tb_dynamic_count + info.n_insns)
        (s.insns_executed + info.n_insns - L)) } :: l2 :=
    @update_append pc
      (fun b => { b with tb_dynamic_count := (sub64 (info.tb_dynamic_count + info.n_insns)
        (s.insns_executed + info.n_insns - L)) }) l1 l2
      { info with tb_dynamic_count := info.tb_dynamic_count + info.n_insns } hl1 h0b
  have e3 : zero_counts
      (l1 ++ { info with tb_dynamic_count := (sub64 (info.tb_dynamic_count + info.n_insns)
        (s.insns_executed + info.n_insns - L)) } :: l2) =
      zero_counts l1 ++ ({ info with tb_dynamic_count := 0} :
        BBExecutionFrequency) :: zero_counts l2 := by
    simp only [zero_counts, List.map_append, List.map_cons]
  have e4 : update pc
      (fun b => { b with tb_dynamic_count := s.insns_executed + info.n_insns - L })
      (zero_counts l1 ++ ({ info with tb_dynamic_count := 0} :
        BBExecutionFrequency) :: zero_counts l2) =
      zero_counts l1 ++ ({ info with tb_dynamic_count :=
        s.insns_executed + info.n_insns - L } :
        BBExecutionFrequency) :: zero_counts l2 :=
    update_append _ hl1z h0c
  rw [vcpu_tb_exec, hfind]
  simp only [Nat.mod_eq_of_lt hwrap, Nat.mod_eq_of_lt hcnt, if_pos hcross]
  rw [e1, e2]
  simp only [handle_interval_expiry]
  rw [e3, e4]

/-- C10 counterexample: interval length 10, one block of 25
instructions.  Its first execution crosses two boundaries at once and
carries a residual of 15 (> 10) into the next interval, yet the next
emitted interval line sums to exactly 10 instructions, not more.  A
second trace (blocks of 25 then 5 instructions) shows the other
reachable behavior after such a double cross: when a different block
triggers the next emission, its uint64 count underflows and the line
is [(0, 15), (1, 2^64 - 5)], summing to 2^64 + 10 -- a wraparound
artifact congruent to 10 modulo 2^64, again not an instruction count
exceeding the interval size. -/
theorem bbv_double_cross_next_line_exact :
    (run 10 [Event.trans 0 25 none, Event.exec 0]).insns_executed = 15 ∧
    (run 10 [Event.trans 0 25 none, Event.exec 0, Event.exec 0]).bb_out =
      [[(0, 10)], [(0, 10)]] ∧
    lineSum [(0, 10)] = 10 ∧ ¬ (10 : Nat) > 10 ∧
    (run 10 [Event.trans 0 25 none, Event.trans 1 5 none,
      Event.exec 0, Event.exec 1]).bb_out =
      [[(0, 10)], [(0, 15), (1, 2 ^ 64 - 5)]] ∧
    lineSum [(0, 15), (1, 2 ^ 64 - 5)] = 2 ^ 64 + 10 ∧
    (2 ^ 64 + 10) % 2 ^ 64 = 10 := by
  refine ⟨by decide, by decide, by decide, by decide, by decide, by decide, by decide⟩

/-- C10 (amended): a crossing execution appends exactly one line to
bb_out, and when it crosses two or more boundaries at once the residual
carried into the next interval exceeds the interval length; but the
next emitted interval line does not cover more than interval-size
instructions: under the conservation invariant its counts sum to
exactly the interval length, or to 2^64 plus the interval length when
the triggering block's uint64 count underflows -- in every case to the
interval length modulo 2^64. -/
theorem bbv_multi_boundary_one_emission {L pc : Nat} {s : State}
    {info : BBExecutionFrequency}
    (hfind : lookup pc s.blocks = some info)
    (hsum : countSum s.blocks = s.insns_executed)
    (hwrap : s.insns_executed + info.n_insns < u64)
    (hcross : L < s.insns_executed + info.n_insns) :
    ∃ line, (vcpu_tb_exec L pc s).bb_out = s.bb_out ++ [line] ∧
      (lineSum line = L ∨ lineSum line = u64 + L) ∧
      lineSum line % u64 = L ∧
      (L + L < s.insns_executed + info.n_insns →
        L < (vcpu_tb_exec L pc s).insns_executed) := by
  obtain ⟨l1, l2, hbs, hl1, h0⟩ := lookup_decomp hfind
  have hsum0 : countSum l1 + info.tb_dynamic_count + countSum l2 =
      s.insns_executed := by
    rw [hbs, countSum_append, countSum_cons] at hsum
    omega
  have hcnt : info.tb_dynamic_count + info.n_insns < u64 := by omega
  have hLu : L < u64 := by omega
  have e := vcpu_tb_exec_cross_raw hbs hl1 h0 hwrap hcnt hcross
  have hline : lineSum (print_bb_freq_line (l1 ++
      { info with tb_dynamic_count :=
          (sub64 (info.tb_dynamic_count + info.n_insns)
            (s.insns_executed + info.n_insns - L)) } :: l2)) =
      countSum l1 + sub64 (info.tb_dynamic_count + info.n_insns)
        (s.insns_executed + info.n_insns - L) + countSum l2 := by
    rw [lineSum_print_bb_freq, countSum_append, countSum_cons]
    dsimp only
    omega
  have hcases : lineSum (print_bb_freq_line (l1 ++
      { info with tb_dynamic_count :=
          (sub64 (info.tb_dynamic_count + info.n_insns)
            (s.insns_executed + info.n_insns - L)) } :: l2)) = L ∨
      lineSum (print_bb_freq_line (l1 ++
      { info with tb_dynamic_count :=
          (sub64 (info.tb_dynamic_count + info.n_insns)
            (s.insns_executed + info.n_insns - L)) } :: l2)) = u64 + L := by
    by_cases hle : s.insns_executed + info.n_insns - L ≤
        info.tb_dynamic_count + info.n_insns
    · left
      rw [hline, sub64_of_le _ _ hle hcnt]
      omega
    · right
      have hs1 : sub64 (info.tb_dynamic_count + info.n_insns)
          (s.insns_executed + info.n_insns - L) =
          info.tb_dynamic_count + info.n_insns + u64 -
            (s.insns_executed + info.n_insns - L) := by
        rw [sub64, Nat.mod_eq_of_lt (show s.insns_executed + info.n_insns - L < u64 by
          omega)]
        rw [Nat.mod_eq_of_lt (by omega)]
      rw [hline, hs1]
      omega
  refine ⟨_, by rw [e], hcases, ?_, ?_⟩
  · rcases hcases with hc | hc
    · rw [hc, Nat.mod_eq_of_lt hLu]
    · rw [hc, Nat.add_mod_left, Nat.mod_eq_of_lt hLu]
  · intro h2
    rw [e]
    dsimp only
    omega

/-- Witness for the amended C10 theorem: interval 10, a block of 25
instructions executed with 5 instructions already in the interval
crosses two boundaries; the line sums to 10 (10 modulo 2^64) and the
residual is 20. -/
theorem bbv_multi_boundary_one_emission_witness :
    (lookup 0 (State.mk [⟨0, 0, 25, 5, none, 0⟩] 5 1 []).blocks =
       some ⟨0, 0, 25, 5, none, 0⟩ ∧
     countSum (State.mk [⟨0, 0, 25, 5, none, 0⟩] 5 1 []).blocks = 5 ∧
     (5 : Nat) + 25 < u64 ∧ 10 < (5 : Nat) + 25) ∧
    ∃ line,
      (vcpu_tb_exec 10 0 (State.mk [⟨0, 0, 25, 5, none, 0⟩] 5 1 [])).bb_out =
        (State.mk [⟨0, 0, 25, 5, none, 0⟩] 5 1 []).bb_out ++ [line] ∧
      (lineSum line = 10 ∨ lineSum line = u64 + 10) ∧
      lineSum line % u64 = 10 ∧
      (10 + 10 < (5 : Nat) + 25 →
        10 < (vcpu_tb_exec 10 0 (State.mk [⟨0, 0, 25, 5, none, 0⟩] 5 1 [])).insns_executed) :=
  ⟨⟨by decide, by decide, by decide, by decide⟩,
    @bbv_multi_boundary_one_emission 10 0
      (State.mk [⟨0, 0, 25, 5, none, 0⟩] 5 1 [])
      ⟨0, 0, 25, 5, none, 0⟩ (by decide) (by decide) (by decide) (by decide)⟩

end BBV

theorem gMergeF_mem {α : Type} {cmp : α → α → Int} :
    ∀ (fuel : Nat) (l1 l2 : List α) (x : α),
      x ∈ gMergeF cmp fuel l1 l2 → x ∈ l1 ∨ x ∈ l2 := by
  intro fuel
  induction fuel with
  | zero =>
    intro l1 l2 x hx
    match l1, l2 with
    | [], l2 => exact Or.inr (by simpa [gMergeF] using hx)
    | a :: l1, [] => exact Or.inl (by simpa [gMergeF] using hx)
    | a :: l1, b :: l2 =>
      simp only [gMergeF] at hx
      exact List.mem_append.mp hx
  | succ fuel ih =>
    intro l1 l2 x hx
    match l1, l2 with
    | [], l2 => exact Or.inr (by simpa [gMergeF] using hx)
    | a :: l1, [] => exact Or.inl (by simpa [gMergeF] using hx)
    | a :: l1, b :: l2 =>
      rw [gMergeF] at hx
      by_cases hc : cmp a b ≤ 0
      · rw [if_pos hc] at hx
        rcases List.mem_cons.mp hx with h | h
        · exact Or.inl (h ▸ List.mem_cons_self _ _)
        · rcases ih l1 (b :: l2) x h with h | h
          · exact Or.inl (List.mem_cons_of_mem _ h)
          · exact Or.inr h
      · rw [if_neg hc] at hx
        rcases List.mem_cons.mp hx with h | h
        · exact Or.inr (h ▸ List.mem_cons_self _ _)
        · rcases ih (a :: l1) l2 x h with h | h
          · exact Or.inl h
          · exact Or.inr (List.mem_cons_of_mem _ h)

/-- Merging two lists that are sorted in descending key order with the
GLib comparator convention yields a descending list. -/
theorem gMergeF_pairwise {α : Type} (key : α → Nat) (cmp : α → α → Int)
    (hcmp : ∀ a b, cmp a b ≤ 0 ↔ key b < key a) :
    ∀ (fuel : Nat) (l1 l2 : List α), l1.length + l2.length ≤ fuel + 1 →
      l1.Pairwise (fun a b => key b ≤ key a) →
      l2.Pairwise (fun a b => key b ≤ key a) →
      (gMergeF cmp fuel l1 l2).Pairwise (fun a b => key b ≤ key a) := by
  intro fuel
  induction fuel with
  | zero =>
    intro l1 l2 hlen h1 h2
    match l1, l2 with
    | [], l2 => simpa [gMergeF] using h2
    | a :: l1, [] => simpa [gMergeF] using h1
    | a :: l1, b :: l2 =>
      exfalso
      simp only [List.length_cons] at hlen
      omega
  | succ fuel ih =>
    intro l1 l2 hlen h1 h2
    match l1, l2 with
    | [], l2 => simpa [gMergeF] using h2
    | a :: l1, [] => simpa [gMergeF] using h1
    | a :: l1, b :: l2 =>
      rw [List.pairwise_cons] at h1 h2
      obtain ⟨ha, h1t⟩ := h1
      obtain ⟨hb, h2t⟩ := h2
      simp only [List.length_cons] at hlen
      rw [gMergeF]
      by_cases hc : cmp a b ≤ 0
      · have hba : key b < key a := (hcmp a b).mp hc
        rw [if_pos hc, List.pairwise_cons]
        constructor
        · intro x hx
          rcases gMergeF_mem fuel l1 (b :: l2) x hx with h | h
          · exact ha x h
          · rcases List.mem_cons.mp h with h | h
            · exact h ▸ Nat.le_of_lt hba
            · exact Nat.le_trans (hb x h) (Nat.le_of_lt hba)
        · exact ih l1 (b :: l2) (by simp; omega) h1t (List.pairwise_cons.mpr ⟨hb, h2t⟩)
      · have hab : key a ≤ key b := by
          have := (hcmp a b).not.mp hc
          omega
        rw [if_neg hc, List.pairwise_cons]
        constructor
        · intro x hx
          rcases gMergeF_mem fuel (a :: l1) l2 x hx with h | h
          · rcases List.mem_cons.mp h with h | h
            · exact h ▸ hab
            · exact Nat.le_trans (ha x h) hab
          · exact hb x h
        · exact ih (a :: l1) l2 (by simp; omega) (List.pairwise_cons.mpr ⟨ha, h1t⟩) h2t

/-- The GLib merge sort produces a list sorted in descending key order
for a comparator returning a negative value exactly when the first key
is strictly greater. -/
theorem gSortF_pairwise {α : Type} (key : α → Nat) (cmp : α → α → Int)
    (hcmp : ∀ a b, cmp a b ≤ 0 ↔ key b < key a) :
    ∀ (fuel : Nat) (l : List α), l.length ≤ fuel →
      (gSortF cmp fuel l).Pairwise (fun a b => key b ≤ key a) := by
  intro fuel
  induction fuel with
  | zero =>
    intro l hl
    have : l = [] := List.length_eq_zero.mp (Nat.le_zero.mp hl)
    subst this
    simp [gSortF]
  | succ fuel ih =>
    intro l hl
    match l with
    | [] => simp [gSortF]
    | [a] => simp [gSortF]
    | a :: b :: rest =>
      rw [gSortF, g_list_sort_merge]
      simp only [List.length_cons] at hl
      have hk1 : ((a :: b :: rest).take ((a :: b :: rest).length / 2)).length ≤ fuel := by
        simp only [List.length_take, List.length_cons]
        omega
      have hk2 : ((a :: b :: rest).drop ((a :: b :: rest).length / 2)).length ≤ fuel := by
        simp only [List.length_drop, List.length_cons]
        omega
      exact gMergeF_pairwise key cmp hcmp _ _ _ (Nat.le_succ_of_le le_rfl)
        (ih _ hk1) (ih _ hk2)

theorem g_list_sort_pairwise {α : Type} (key : α → Nat) (cmp : α → α → Int)
    (hcmp : ∀ a b, cmp a b ≤ 0 ↔ key b < key a) (l : List α) :
    (g_list_sort cmp l).Pairwise (fun a b => key b ≤ key a) :=
  gSortF_pairwise key cmp hcmp l.length l le_rfl

namespace HotBlocks

theorem cmp_dynamic_insncount_spec (a b : TBExecCount) :
    cmp_dynamic_insncount a b ≤ 0 ↔ keyI b < keyI a := by
  unfold cmp_dynamic_insncount
  by_cases h : keyI b < keyI a <;> simp [h]

theorem cmp_dynamic_execcount_spec (a b : TBExecCount) :
    cmp_dynamic_execcount a b ≤ 0 ↔ keyE b < keyE a := by
  unfold cmp_dynamic_execcount
  by_cases h : keyE b < keyE a <;> simp [h]

/-- C6 (amended): both report sections are sorted in descending order
of their keys (dynamic instruction count exec_count * n_insns for the
first section, invocation count for the second): whenever block A
precedes block B, A's key is at least B's key.  The order is a
deterministic function of the value list, but it is not a stable sort
in insertion order (see the counterexample). -/
theorem hot_report_sections_sorted (store : List TBExecCount) :
    ((g_list_sort cmp_dynamic_insncount store).Pairwise
      (fun a b => keyI b ≤ keyI a)) ∧
    ((g_list_sort cmp_dynamic_execcount store).Pairwise
      (fun a b => keyE b ≤ keyE a)) ∧
    ((plugin_exit store).insn_lines.Pairwise (fun x y => y.count ≤ x.count)) ∧
    ((plugin_exit store).invoc_lines.Pairwise (fun x y => y.count ≤ x.count)) := by
  have h1 := g_list_sort_pairwise keyI cmp_dynamic_insncount
    cmp_dynamic_insncount_spec store
  have h2 := g_list_sort_pairwise keyE cmp_dynamic_execcount
    cmp_dynamic_execcount_spec store
  refine ⟨h1, h2, ?_, ?_⟩
  · have hd := h1.sublist (List.dropLast_sublist _)
    dsimp only [plugin_exit]
    rw [List.pairwise_map]
    refine hd.imp ?_
    intro a b hab
    dsimp only
    simpa [keyI, Nat.mul_comm] using hab
  · have hd := h2.sublist (List.dropLast_sublist _)
    dsimp only [plugin_exit]
    rw [List.pairwise_map]
    refine hd.imp ?_
    intro a b hab
    dsimp only
    simpa [keyE] using hab

/-- C6 counterexample: two blocks with equal keys in both orderings,
in store (insertion) order [0x100, 0x200], are emitted by the sort in
the order [0x200, 0x100]: the comparator never returns 0, so the GLib
merge places the later element first and the tie-break is not the
stable insertion order the claim states. -/
theorem hot_sort_tie_not_stable :
    ((g_list_sort cmp_dynamic_insncount
      [⟨256, 1, 1, 2, [], none⟩, ⟨512, 1, 1, 2, [], none⟩]).map (·.start_addr) =
      [512, 256]) ∧
    ((g_list_sort cmp_dynamic_execcount
      [⟨256, 1, 1, 2, [], none⟩, ⟨512, 1, 1, 2, [], none⟩]).map (·.start_addr) =
      [512, 256]) ∧
    ([512, 256] : List Nat) ≠ [256, 512] := by
  refine ⟨by decide, by decide, by decide⟩

/-- A successful lookup splits the hot-block store into a non-matching
first part, the found record, and the rest. -/
theorem hb_lookup_decomp {pc : Nat} {store : List TBExecCount}
    {c0 : TBExecCount} (h : lookup pc store = some c0) :
    ∃ l1 l2, store = l1 ++ c0 :: l2 ∧ (∀ c ∈ l1, (c.start_addr == pc) = false) ∧
      (c0.start_addr == pc) = true := by
  induction store with
  | nil => simp [lookup] at h
  | cons c cs ih =>
    rw [lookup, List.find?_cons] at h
    by_cases hc : (c.start_addr == pc) = true
    · rw [hc] at h
      simp only [Option.some.injEq] at h
      exact ⟨[], cs, by simpa using h, by simp, h ▸ hc⟩
    · have hc' : (c.start_addr == pc) = false := by simpa using hc
      rw [hc'] at h
      obtain ⟨l1, l2, hcs, h1, h0⟩ := ih h
      exact ⟨c :: l1, l2, by simp [hcs], by
        intro x hx
        rcases List.mem_cons.mp hx with hx | hx
        · subst hx; simpa using hc
        · exact h1 x hx, h0⟩

theorem hb_update_append {pc : Nat} (f : TBExecCount → TBExecCount)
    {l1 l2 : List TBExecCount} {c0 : TBExecCount}
    (h1 : ∀ c ∈ l1, (c.start_addr == pc) = false)
    (h0 : (c0.start_addr == pc) = true) :
    update pc f (l1 ++ c0 :: l2) = l1 ++ f c0 :: l2 := by
  induction l1 with
  | nil => simp [update, h0]
  | cons c l1 ih =>
    have hc := h1 c (List.mem_cons_self c l1)
    simp only [List.cons_append, update, hc]
    simp only [Bool.false_eq_true, if_false, List.cons.injEq, true_and]
    exact ih (fun x hx => h1 x (List.mem_cons_of_mem c hx))

/-- C7: re-translation of an already-known start address.  In the
hot-block plugin the store keeps its length and every record except the
found one is untouched; the found record changes only in trans_count,
which is incremented, so exec_count, n_insns and the stored instruction
snapshot are unchanged and no record is inserted.  In the BBV plugin a
translation hit leaves the whole state (including every tbid and the
next block id) unchanged. -/
theorem retranslation_increments_only_trans_count
    {pc : Nat} {descs : List InsnDesc} {sym : Option String}
    {store : List TBExecCount} {cnt : TBExecCount}
    (h : lookup pc store = some cnt)
    {s : BBV.State} {pc2 n2 : Nat} {sym2 : Option String}
    {info : BBV.BBExecutionFrequency}
    (h2 : BBV.lookup pc2 s.blocks = some info) :
    (∃ l1 l2, store = l1 ++ cnt :: l2 ∧
      vcpu_tb_trans pc descs sym store =
        l1 ++ { cnt with trans_count := (cnt.trans_count + 1) % u64 } :: l2) ∧
    BBV.vcpu_tb_trans pc2 n2 sym2 s = s := by
  constructor
  · obtain ⟨l1, l2, hsx, hl1, h0⟩ := hb_lookup_decomp h
    refine ⟨l1, l2, hsx, ?_⟩
    rw [vcpu_tb_trans, h, hsx]
    exact hb_update_append _ hl1 h0
  · exact BBV.vcpu_tb_trans_hit h2

/-- Witness for the C7 theorem: a store holding one record at address
5 with exec_count 7, trans_count 2, and a BBV table holding block id 3
at address 9. -/
theorem retranslation_increments_only_trans_count_witness :
    (lookup 5 [TBExecCount.mk 5 7 2 3 [] none] = some (TBExecCount.mk 5 7 2 3 [] none) ∧
     BBV.lookup 9 (BBV.State.mk [⟨3, 9, 4, 0, none, 0⟩] 0 4 []).blocks =
       some ⟨3, 9, 4, 0, none, 0⟩) ∧
    ((∃ l1 l2, [TBExecCount.mk 5 7 2 3 [] none] = l1 ++ TBExecCount.mk 5 7 2 3 [] none :: l2 ∧
      vcpu_tb_trans 5 [] none [TBExecCount.mk 5 7 2 3 [] none] =
        l1 ++ TBExecCount.mk 5 7 3 3 [] none :: l2) ∧
     BBV.vcpu_tb_trans 9 4 none (BBV.State.mk [⟨3, 9, 4, 0, none, 0⟩] 0 4 []) =
       BBV.State.mk [⟨3, 9, 4, 0, none, 0⟩] 0 4 []) :=
  ⟨⟨by decide, by decide⟩,
    @retranslation_increments_only_trans_count
      5 [] none [TBExecCount.mk 5 7 2 3 [] none] (TBExecCount.mk 5 7 2 3 [] none)
      (by decide)
      (BBV.State.mk [⟨3, 9, 4, 0, none, 0⟩] 0 4 []) 9 4
      none ⟨3, 9, 4, 0, none, 0⟩ (by decide)⟩

/-- C3 (code-bug evaluation): store with block A (addr 0, 3 insns,
executed twice, contribution 6) and block B (addr 1, 4 insns, executed
once, contribution 4).  The report's total, percentage denominator of
both sections and printed summary value are all 6, because the summing
loop (and both printing loops) stop at the node whose successor is
null and so drop the last element of the sorted list; the sum over all
blocks in the store is 10. -/
theorem hot_report_total_drops_last_sorted_block :
    ((plugin_exit (run [Event.trans 0 [⟨4, 19, "i"⟩, ⟨4, 19, "i"⟩, ⟨4, 19, "i"⟩] none,
      Event.trans 1 [⟨4, 19, "i"⟩, ⟨4, 19, "i"⟩, ⟨4, 19, "i"⟩, ⟨4, 19, "i"⟩] none,
      Event.exec 0, Event.exec 0, Event.exec 1])).summary_total = 6) ∧
    ((plugin_exit (run [Event.trans 0 [⟨4, 19, "i"⟩, ⟨4, 19, "i"⟩, ⟨4, 19, "i"⟩] none,
      Event.trans 1 [⟨4, 19, "i"⟩, ⟨4, 19, "i"⟩, ⟨4, 19, "i"⟩, ⟨4, 19, "i"⟩] none,
      Event.exec 0, Event.exec 0, Event.exec 1])).insn_lines.map (·.pct_den) = [6]) ∧
    ((plugin_exit (run [Event.trans 0 [⟨4, 19, "i"⟩, ⟨4, 19, "i"⟩, ⟨4, 19, "i"⟩] none,
      Event.trans 1 [⟨4, 19, "i"⟩, ⟨4, 19, "i"⟩, ⟨4, 19, "i"⟩, ⟨4, 19, "i"⟩] none,
      Event.exec 0, Event.exec 0, Event.exec 1])).invoc_lines.map (·.pct_den) = [6]) ∧
    (storeTotal (run [Event.trans 0 [⟨4, 19, "i"⟩, ⟨4, 19, "i"⟩, ⟨4, 19, "i"⟩] none,
      Event.trans 1 [⟨4, 19, "i"⟩, ⟨4, 19, "i"⟩, ⟨4, 19, "i"⟩, ⟨4, 19, "i"⟩] none,
      Event.exec 0, Event.exec 0, Event.exec 1]) = 10) ∧
    (6 : Nat) ≠ 10 := by
  refine ⟨by decide, by decide, by decide, by decide, by decide⟩

/-- C8 (code-bug evaluation): two blocks are translated but never
executed, so the total is zero.  The report still renders a per-block
percentage line whose division denominator is 0 (in C a floating-point
division by zero yielding NaN); there is no guard and no "no data"
output anywhere in plugin_exit. -/
theorem hot_zero_total_percentage_unguarded :
    ((plugin_exit (run [Event.trans 0 [⟨4, 19, "a"⟩, ⟨4, 19, "a"⟩, ⟨4, 19, "a"⟩] none,
      Event.trans 1 [⟨4, 19, "b"⟩, ⟨4, 19, "b"⟩, ⟨4, 19, "b"⟩, ⟨4, 19, "b"⟩,
        ⟨4, 19, "b"⟩] none])).summary_total = 0) ∧
    ((plugin_exit (run [Event.trans 0 [⟨4, 19, "a"⟩, ⟨4, 19, "a"⟩, ⟨4, 19, "a"⟩] none,
      Event.trans 1 [⟨4, 19, "b"⟩, ⟨4, 19, "b"⟩, ⟨4, 19, "b"⟩, ⟨4, 19, "b"⟩,
        ⟨4, 19, "b"⟩] none])).insn_lines.map (·.pct_den) = [0]) ∧
    ((plugin_exit (run [Event.trans 0 [⟨4, 19, "a"⟩, ⟨4, 19, "a"⟩, ⟨4, 19, "a"⟩] none,
      Event.trans 1 [⟨4, 19, "b"⟩, ⟨4, 19, "b"⟩, ⟨4, 19, "b"⟩, ⟨4, 19, "b"⟩,
        ⟨4, 19, "b"⟩] none])).insn_lines ≠ []) ∧
    ((plugin_exit (run [Event.trans 0 [⟨4, 19, "a"⟩, ⟨4, 19, "a"⟩, ⟨4, 19, "a"⟩] none,
      Event.trans 1 [⟨4, 19, "b"⟩, ⟨4, 19, "b"⟩, ⟨4, 19, "b"⟩, ⟨4, 19, "b"⟩,
        ⟨4, 19, "b"⟩] none])).invoc_lines.map (·.pct_den) = [0]) := by
  refine ⟨by decide, by decide, by decide, by decide⟩

end HotBlocks

namespace BBVInstall

/-- C9 (code-bug evaluation): qemu_plugin_install accepts
interval-size=0 without any validation and installs successfully with
the interval length set to 0, while an unrecognized option is the only
thing rejected at startup. -/
theorem install_accepts_zero_interval_size :
    (qemu_plugin_install ["interval-size=0"] =
      some { bb_out_file := none, pc_out_file := none, insns_interval_length := 0 }) ∧
    (qemu_plugin_install ["interval-size=0"] ≠ none) ∧
    (qemu_plugin_install ["bogus-option"] = none) := by
  refine ⟨by decide, by decide, by decide⟩

end BBVInstall

end Profiler
